import Mathlib

/-!
# tmc-sapa-telemed: the users store

A shallow embedding of `internal/store/users.go` (the `User` struct with its
json tags and `UsersStore.Create`) together with the parts of its environment
the store talks to: Go's `database/sql` handle (`QueryRowContext` followed by
`Row.Scan` into an `*int64` and a `*string`) and `encoding/json`'s rule for
struct fields, with a reader of JSON text to say what the text written for a
`User` denotes.  The database behind the handle is a parameter of the
development; the pointer `*User` becomes a `User` passed in and returned; a
Go `string` is a sequence of bytes.
-/

namespace Store

/-! ## Go values the store handles -/

/-- A byte. -/
abbrev Byte := Fin 256

/-- A Go `string`: any sequence of bytes, valid UTF-8 or not. -/
abbrev GoString := List Byte

/-- The UTF-8 encoding of a Unicode scalar value (`utf8.AppendRune`). -/
def encodeRune (r : Nat) : List Byte :=
  if r < 0x80 then [Fin.ofNat r]
  else if r < 0x800 then [Fin.ofNat (0xC0 + r / 64), Fin.ofNat (0x80 + r % 64)]
  else if r < 0x10000 then
    [Fin.ofNat (0xE0 + r / 4096), Fin.ofNat (0x80 + r / 64 % 64), Fin.ofNat (0x80 + r % 64)]
  else
    [Fin.ofNat (0xF0 + r / 262144), Fin.ofNat (0x80 + r / 4096 % 64),
      Fin.ofNat (0x80 + r / 64 % 64), Fin.ofNat (0x80 + r % 64)]

/-- The Go string a string literal of the source denotes: its UTF-8 bytes. -/
def utf8 (s : String) : GoString :=
  s.data.flatMap fun c => encodeRune c.toNat

/-- Go `error` values.  `raised` stands for any error made outside `Row.Scan`
(driver, server, `context`), identified by its message; the other three are
the ones `database/sql` creates while scanning: `ErrNoRows`, the
column-count error, and the error wrapping a column's conversion error (its
index is kept, the column name in its message is not). -/
inductive GoError where
  | raised (msg : String)
  | noRows
  | scanArgs (expected got : Nat)
  | scanColumn (index : Nat) (cause : GoError)
deriving DecidableEq, Repr

/-- A `context.Context`, reduced to what a database handle reads from it:
`Err()`, which is nil until the context is cancelled or past its deadline. -/
structure Context where
  Err : Option GoError
deriving DecidableEq, Repr

/-- A query argument (`any` in Go): the store only ever passes strings. -/
inductive Arg where
  | str (s : GoString)
  | int64 (n : Int)
deriving DecidableEq, Repr

/-- A `driver.Value` of a returned column, described by what `convertAssign`
makes of it for the two destination types the store scans into: the `int64`
it assigns through an `*int64` and the `string` it assigns through a
`*string`, or the conversion error (nothing is assigned then). -/
structure Value where
  toInt64 : Except GoError Int
  toStr : Except GoError GoString

/-- The `*sql.Rows` behind a `*sql.Row`: the columns of the first row when
`Next()` finds one, what `Err()` reports when it finds none, and the result
of `Close()`. -/
structure Rows where
  lastcols : Option (List Value)
  iterErr : Option GoError
  closeErr : Option GoError

/-- A `*sql.Row` as `QueryRowContext` returns it: either its `err` field is
set (the query failed), or it carries the rows of the query. -/
inductive Row where
  | failed (err : GoError)
  | fetched (rows : Rows)

/-- The type `*sql.DB` is modelled by its one method the store calls, acting
on the state `σ` of whatever is behind the handle. -/
structure DB (σ : Type) where
  QueryRowContext : Context → String → List Arg → σ → Row × σ

/-! ## `internal/store/users.go` -/

/-- The struct `User`; `ID` is an `int64`, on which no arithmetic is done. -/
structure User where
  ID : Int
  Username : GoString
  Email : GoString
  Password : GoString
  Role : GoString
  CreatedAt : GoString
deriving DecidableEq, Repr

/-- The struct `UsersStore`, holding the handle `db`. -/
structure UsersStore (σ : Type) where
  db : DB σ

/-- The method `(*sql.Rows).Scan` at destinations `(*int64, *string)`: the
number of columns must be two, then the columns are converted and assigned
left to right, stopping at the first conversion error.  Returns the error and
the contents of the two destinations afterwards. -/
def Rows.Scan (cols : List Value) (id : Int) (createdAt : GoString) :
    Option GoError × Int × GoString :=
  match cols with
  | [c0, c1] =>
    match c0.toInt64 with
    | .error e => (some (.scanColumn 0 e), id, createdAt)
    | .ok i =>
      match c1.toStr with
      | .error e => (some (.scanColumn 1 e), i, createdAt)
      | .ok s => (none, i, s)
  | _ => (some (.scanArgs cols.length 2), id, createdAt)

/-- The method `(*sql.Row).Scan` at destinations `(*int64, *string)`: a failed
query returns its error; no row returns `rows.Err()` or else `ErrNoRows`;
otherwise the first row is scanned and, when that succeeds, the result of
`rows.Close()` is returned.  Rows closed from another goroutine during the
scan are outside this sequential model. -/
def Row.Scan (r : Row) (id : Int) (createdAt : GoString) :
    Option GoError × Int × GoString :=
  match r with
  | .failed e => (some e, id, createdAt)
  | .fetched rows =>
    match rows.lastcols with
    | none => (some (rows.iterErr.getD .noRows), id, createdAt)
    | some cols =>
      match Rows.Scan cols id createdAt with
      | (some e, id1, createdAt1) => (some e, id1, createdAt1)
      | (none, id1, createdAt1) => (rows.closeErr, id1, createdAt1)

/-- The text of the statement, the raw string literal of `Create`. -/
def UsersStore.query : String :=
  "\n\t\tINSERT INTO users (username, email, password, role) VALUES ($1, $2, $3, $4) RETURNING id,\n\t\t created_at\n\t"

/-- What a call of `Create` leaves behind: the returned `error`, the `User`
the pointer refers to, and the state behind the handle. -/
structure Outcome (σ : Type) where
  err : Option GoError
  user : User
  world : σ

/-- The method `UsersStore.Create`: one `QueryRowContext` with the caller's
context, the statement and the four input fields, scanned into `&user.ID`
and `&user.CreatedAt`; the error of the scan is returned as it is.  The
receiver and `user` are taken to be non-nil. -/
def UsersStore.Create {σ : Type} (s : UsersStore σ) (ctx : Context) (user : User)
    (w : σ) : Outcome σ :=
  let (row, w1) := s.db.QueryRowContext ctx UsersStore.query
    [.str user.Username, .str user.Email, .str user.Password, .str user.Role] w
  let (err, id, createdAt) := row.Scan user.ID user.CreatedAt
  let user1 := { user with ID := id, CreatedAt := createdAt }
  match err with
  | some e => ⟨some e, user1, w1⟩
  | none => ⟨none, user1, w1⟩

/-- The function `NewStorage`, restricted to its `Users` field. -/
def NewStorage {σ : Type} (db : DB σ) : UsersStore σ :=
  ⟨db⟩

/-! ## Observing the calls made on a handle -/

/-- One call of `QueryRowContext` as the handle receives it. -/
structure Call where
  ctx : Context
  query : String
  args : List Arg
deriving DecidableEq, Repr

/-- The same handle, with every call it receives appended to a log kept next
to its state. -/
def DB.recording {σ : Type} (db : DB σ) : DB (σ × List Call) where
  QueryRowContext ctx q args w :=
    let (row, w1) := db.QueryRowContext ctx q args w.1
    (row, (w1, w.2 ++ [⟨ctx, q, args⟩]))

/-- The row a handle answers `Create` with for a given user and state. -/
def UsersStore.answer {σ : Type} (s : UsersStore σ) (ctx : Context) (user : User)
    (w : σ) : Row :=
  (s.db.QueryRowContext ctx UsersStore.query
    [.str user.Username, .str user.Email, .str user.Password, .str user.Role] w).1

/-- The query/scan step succeeds with the row `(id, createdAt)`: the query
did not fail, its first row has exactly two columns, the first converts to
the int64 `id`, the second to the string `createdAt`, and closing the rows
reports no error. -/
def Row.Yields (r : Row) (id : Int) (createdAt : GoString) : Prop :=
  ∃ c0 c1 iterErr, r = .fetched ⟨some [c0, c1], iterErr, none⟩ ∧
    c0.toInt64 = .ok id ∧ c1.toStr = .ok createdAt

/-! ## The users table behind the handle -/

/-- A row of the `users` table: the four inserted columns and the two
generated ones, the latter as the driver hands them back. -/
structure UserRow where
  id : Value
  username : GoString
  email : GoString
  password : GoString
  role : GoString
  created_at : Value

/-- The `users` table. -/
abbrev Table := List UserRow

/-- The server side of the insert, owned by the schema and unknown to the
store: which inserts the table's constraints reject (and with what error),
and which `id` and `created_at` the column defaults generate. -/
structure Engine where
  violation : Table → GoString → GoString → GoString → GoString → Option GoError
  generate : Table → GoString → GoString → GoString → GoString → Value × Value

/-- A handle on a database holding the `users` table, with statement-level
atomicity: a context that is already done is refused before anything is sent
(as `database/sql` does when it picks a connection); a rejected insert fails
and leaves the table as it was; an accepted insert appends exactly one row
and returns its generated columns.  Any other statement is refused. -/
def Engine.db (E : Engine) : DB Table where
  QueryRowContext ctx q args tbl :=
    match ctx.Err with
    | some e => (.failed e, tbl)
    | none =>
      if q = UsersStore.query then
        match args with
        | [.str username, .str email, .str password, .str role] =>
          match E.violation tbl username email password role with
          | some e => (.failed e, tbl)
          | none =>
            let (id, createdAt) := E.generate tbl username email password role
            (.fetched ⟨some [id, createdAt], none, none⟩,
              tbl ++ [⟨id, username, email, password, role, createdAt⟩])
        | _ => (.failed (.raised "pq: wrong number or type of parameters"), tbl)
      else (.failed (.raised "pq: statement not supported"), tbl)

/-- A handle honours cancellation when a call with a context that is already
done fails with the context's error and changes nothing behind the handle. -/
def DB.HonoursDone {σ : Type} (db : DB σ) : Prop :=
  ∀ ctx q args w e, ctx.Err = some e → db.QueryRowContext ctx q args w = (.failed e, w)

/-! ## `encoding/json` on the struct `User` -/

/-- The value of a struct field of one of the two kinds `User` has. -/
inductive FieldValue where
  | int64 (n : Int)
  | string (s : GoString)
deriving DecidableEq, Repr

/-- A struct field as `encoding/json` sees it: its Go name, the name part of
its `json` tag, and its value. -/
structure StructField where
  name : String
  tag : String
  value : FieldValue
deriving DecidableEq, Repr

/-- The fields of `User` with their json tags, in declaration order. -/
def User.fields (u : User) : List StructField :=
  [ ⟨"ID", "id", .int64 u.ID⟩,
    ⟨"Username", "username", .string u.Username⟩,
    ⟨"Email", "email", .string u.Email⟩,
    ⟨"Password", "-", .string u.Password⟩,
    ⟨"Role", "role", .string u.Role⟩,
    ⟨"CreatedAt", "created_at", .string u.CreatedAt⟩ ]

/-- The members of the JSON object of a struct: a field tagged `-` is left
out, any other field appears under its tag name (its Go name when the tag
names nothing), in declaration order.  None of the tags of `User` carries
options such as `omitempty`, which are not modelled. -/
def jsonMembers (fs : List StructField) : List (String × FieldValue) :=
  fs.filterMap fun f =>
    if f.tag = "-" then none
    else some (if f.tag = "" then f.name else f.tag, f.value)

/-- The table `first` of package `utf8` for a leading byte that starts a
multi-byte encoding: the size of the encoding and the range accepted for its
second byte; none for every other byte. -/
def first (b0 : Nat) : Option (Nat × Nat × Nat) :=
  if 0xC2 ≤ b0 ∧ b0 ≤ 0xDF then some (2, 0x80, 0xBF)
  else if b0 = 0xE0 then some (3, 0xA0, 0xBF)
  else if b0 = 0xED then some (3, 0x80, 0x9F)
  else if 0xE1 ≤ b0 ∧ b0 ≤ 0xEF then some (3, 0x80, 0xBF)
  else if b0 = 0xF0 then some (4, 0x90, 0xBF)
  else if 0xF1 ≤ b0 ∧ b0 ≤ 0xF3 then some (4, 0x80, 0xBF)
  else if b0 = 0xF4 then some (4, 0x80, 0x8F)
  else none

/-- The result of `utf8.DecodeRuneInString`: a rune with the size of its
encoding, or `RuneError` with size 1 (size 0 on the empty string, which the
encoder never decodes). -/
inductive Decoded where
  | rune (r : Nat) (size : Nat)
  | invalid
deriving DecidableEq, Repr

/-- The function `utf8.DecodeRuneInString`. -/
def decodeRune : GoString → Decoded
  | [] => .invalid
  | b0 :: rest =>
    if b0.val < 0x80 then .rune b0.val 1
    else
      match first b0.val with
      | none => .invalid
      | some (sz, lo, hi) =>
        match rest with
        | [] => .invalid
        | b1 :: rest1 =>
          if b1.val < lo ∨ hi < b1.val then .invalid
          else if sz ≤ 2 then .rune (b0.val % 32 * 64 + b1.val % 64) 2
          else
            match rest1 with
            | [] => .invalid
            | b2 :: rest2 =>
              if b2.val < 0x80 ∨ 0xBF < b2.val then .invalid
              else if sz ≤ 3 then
                .rune (b0.val % 16 * 4096 + b1.val % 64 * 64 + b2.val % 64) 3
              else
                match rest2 with
                | [] => .invalid
                | b3 :: _ =>
                  if b3.val < 0x80 ∨ 0xBF < b3.val then .invalid
                  else
                    .rune (b0.val % 8 * 262144 + b1.val % 64 * 4096 + b2.val % 64 * 64
                      + b3.val % 64) 4

/-- A digit of `0123456789abcdef` as a byte. -/
def hexDigit (n : Nat) : Byte :=
  if n < 10 then Fin.ofNat (48 + n) else Fin.ofNat (87 + n)

/-- The escape `encoding/json` (Go 1.22 and later) writes for one ASCII byte
of a string, HTML escaping on as in `json.Marshal`: backslash and double
quote get a backslash, backspace, form feed, newline, carriage return and
tab their short escapes, other control characters and `<`, `>`, `&` a
`\u00XX` escape, every other byte is copied. -/
def escapeByte (b : Byte) : List Byte :=
  let n := b.val
  if n = 92 ∨ n = 34 then [92, b]
  else if n = 8 then [92, 98]
  else if n = 12 then [92, 102]
  else if n = 10 then [92, 110]
  else if n = 13 then [92, 114]
  else if n = 9 then [92, 116]
  else if n < 32 ∨ n = 60 ∨ n = 62 ∨ n = 38 then
    [92, 117, 48, 48, hexDigit (n / 16), hexDigit (n % 16)]
  else [b]

/-- The loop of `appendString` from a position on: `skip` counts the bytes
up to the next position the loop looks at (the rest of the encoding decoded
last), which are copied when `copy` is set.  At a position, an ASCII byte is
escaped; a byte that starts no valid encoding becomes the six characters
`\ufffd`; U+2028 and U+2029 become `\u2028` and `\u2029`; any other
encoding is copied. -/
def encodeFrom : Nat → Bool → GoString → List Byte
  | _, _, [] => []
  | skip + 1, copy, b :: rest => (if copy then [b] else []) ++ encodeFrom skip copy rest
  | 0, _, b :: rest =>
    if b.val < 0x80 then escapeByte b ++ encodeFrom 0 true rest
    else
      match decodeRune (b :: rest) with
      | .invalid => [92, 117, 102, 102, 102, 100] ++ encodeFrom 0 true rest
      | .rune r size =>
        if r = 0x2028 ∨ r = 0x2029 then
          [92, 117, 50, 48, 50, hexDigit (r % 16)] ++ encodeFrom (size - 1) false rest
        else b :: encodeFrom (size - 1) true rest

/-- A JSON string literal as `appendString` writes it. -/
def encodeString (s : GoString) : List Byte :=
  34 :: (encodeFrom 0 true s ++ [34])

/-- The digits of `strconv.FormatInt` in base 10, least significant first
into `acc`; `fuel` bounds the number of digits. -/
def formatDigits : Nat → Nat → List Byte → List Byte
  | 0, _, acc => acc
  | fuel + 1, n, acc =>
    if n < 10 then Fin.ofNat (48 + n) :: acc
    else formatDigits fuel (n / 10) (Fin.ofNat (48 + n % 10) :: acc)

/-- The decimal text of an int64 (`strconv.AppendInt`). -/
def formatInt : Int → List Byte
  | .ofNat n => formatDigits (n + 1) n []
  | .negSucc n => 45 :: formatDigits (n + 2) (n + 1) []

/-- The JSON text of a field value: an int64 in decimal, a string as a
string literal. -/
def encodeValue : FieldValue → List Byte
  | .int64 n => formatInt n
  | .string s => encodeString s

/-- One member of an object: the key, a colon, the value. -/
def encodeMember (m : String × FieldValue) : List Byte :=
  encodeString (utf8 m.1) ++ 58 :: encodeValue m.2

/-- The loop of the struct encoder: before each member the byte `next`, an
opening brace for the first and a comma afterwards; at the end a closing
brace, after an opening one when there was no member. -/
def encodeFields : Byte → List (String × FieldValue) → List Byte
  | next, [] => if next = 123 then [123, 125] else [125]
  | next, m :: ms => next :: (encodeMember m ++ encodeFields 44 ms)

/-- The JSON text of an object. -/
def encodeObject (ms : List (String × FieldValue)) : List Byte :=
  encodeFields 123 ms

/-- The JSON object `json.Marshal` builds for a `User`. -/
def User.toJSON (u : User) : List (String × FieldValue) :=
  jsonMembers u.fields

/-- The output of `json.Marshal` on a `User`. -/
def User.Marshal (u : User) : List Byte :=
  encodeObject u.toJSON

/-- The text `needle` occurs in `hay` as a contiguous substring. -/
def Occurs (needle hay : String) : Prop :=
  needle.data <:+: hay.data

instance (needle hay : String) : Decidable (Occurs needle hay) :=
  inferInstanceAs (Decidable (needle.data <:+: hay.data))

/-- The bytes `needle` occur in `hay` as a contiguous run. -/
def OccursIn (needle hay : List Byte) : Prop :=
  needle <:+: hay

instance (needle hay : List Byte) : Decidable (OccursIn needle hay) :=
  inferInstanceAs (Decidable (needle <:+: hay))

/-! ## Reading JSON text (RFC 8259) -/

/-- The text of a Go string coerced to valid UTF-8 as `encoding/json`
documents it: every byte that is not part of a valid encoding is replaced by
the encoding of U+FFFD, everything else is kept. -/
def coerceFrom : Nat → GoString → GoString
  | _, [] => []
  | skip + 1, b :: rest => b :: coerceFrom skip rest
  | 0, b :: rest =>
    match decodeRune (b :: rest) with
    | .invalid => [0xEF, 0xBF, 0xBD] ++ coerceFrom 0 rest
    | .rune _ size => b :: coerceFrom (size - 1) rest

/-- The string coerced to valid UTF-8. -/
def coerceUTF8 (s : GoString) : GoString :=
  coerceFrom 0 s

/-- The function `utf8.ValidString`, from a position on. -/
def validFrom : Nat → GoString → Bool
  | _, [] => true
  | skip + 1, _ :: rest => validFrom skip rest
  | 0, b :: rest =>
    match decodeRune (b :: rest) with
    | .invalid => false
    | .rune _ size => validFrom (size - 1) rest

/-- The function `utf8.ValidString`. -/
def validUTF8 (s : GoString) : Bool :=
  validFrom 0 s

/-- Where a reader is inside a string literal: between characters, after a
backslash, or after `\u` and `seen` hex digits of value `code`. -/
inductive Escape where
  | plain
  | backslash
  | hex (seen : Nat) (code : Nat)
deriving DecidableEq, Repr

/-- The value of a hexadecimal digit. -/
def hexVal (b : Byte) : Option Nat :=
  let n := b.val
  if 48 ≤ n ∧ n ≤ 57 then some (n - 48)
  else if 97 ≤ n ∧ n ≤ 102 then some (n - 87)
  else if 65 ≤ n ∧ n ≤ 70 then some (n - 55)
  else none

/-- What one byte inside a string literal does: the literal goes on, with
the bytes it adds to the string; or the literal ends; or the text is not
JSON. -/
inductive StrOut where
  | more (e : Escape) (out : List Byte)
  | close
  | error
deriving DecidableEq, Repr

/-- One byte inside a string literal: a double quote ends it, a backslash
starts an escape (`\"`, `\\`, `\/`, `\b`, `\f`, `\n`, `\r`, `\t`, or `\u`
and four hex digits naming a code point, surrogates refused), a raw control
character is an error and every other byte is taken as it is. -/
def strStep : Escape → Byte → StrOut
  | .plain, b =>
    if b.val = 34 then .close
    else if b.val = 92 then .more .backslash []
    else if b.val < 32 then .error
    else .more .plain [b]
  | .backslash, b =>
    if b.val = 34 ∨ b.val = 92 ∨ b.val = 47 then .more .plain [b]
    else if b.val = 98 then .more .plain [8]
    else if b.val = 102 then .more .plain [12]
    else if b.val = 110 then .more .plain [10]
    else if b.val = 114 then .more .plain [13]
    else if b.val = 116 then .more .plain [9]
    else if b.val = 117 then .more (.hex 0 0) []
    else .error
  | .hex seen code, b =>
    match hexVal b with
    | none => .error
    | some v =>
      if seen < 3 then .more (.hex (seen + 1) (code * 16 + v)) []
      else if 0xD800 ≤ code * 16 + v ∧ code * 16 + v < 0xE000 then .error
      else .more .plain (encodeRune (code * 16 + v))

/-- The members read so far. -/
abbrev Members := List (GoString × FieldValue)

/-- The state of a reader of the JSON text of a flat object whose values are
integers and strings, in compact form (no white space): before the opening
brace, after it, inside the string literal of a key (`key = none`) or of the
value of a key, before the colon, before a value, after a minus sign, inside
a number, after a value, after a comma, at the end, or failed. -/
inductive Reader where
  | start
  | opened
  | str (ms : Members) (key : Option GoString) (e : Escape) (bs : GoString)
  | colon (ms : Members) (key : GoString)
  | value (ms : Members) (key : GoString)
  | minus (ms : Members) (key : GoString)
  | num (ms : Members) (key : GoString) (neg : Bool) (n : Nat)
  | after (ms : Members)
  | comma (ms : Members)
  | done (ms : Members)
  | fail
deriving DecidableEq, Repr

/-- The integer a sign and a magnitude denote. -/
def signed (neg : Bool) (n : Nat) : Int :=
  if neg then -(n : Int) else n

/-- One byte of JSON text (RFC 8259, compact form).  A number is an optional
minus sign and decimal digits, ended by the comma or brace after it. -/
def Reader.step : Reader → Byte → Reader
  | .start, b => if b.val = 123 then .opened else .fail
  | .opened, b =>
    if b.val = 34 then .str [] none .plain []
    else if b.val = 125 then .done []
    else .fail
  | .comma ms, b => if b.val = 34 then .str ms none .plain [] else .fail
  | .str ms key e bs, b =>
    match strStep e b with
    | .more e1 out => .str ms key e1 (bs ++ out)
    | .error => .fail
    | .close =>
      match key with
      | none => .colon ms bs
      | some k => .after (ms ++ [(k, .string bs)])
  | .colon ms key, b => if b.val = 58 then .value ms key else .fail
  | .value ms key, b =>
    if b.val = 34 then .str ms (some key) .plain []
    else if b.val = 45 then .minus ms key
    else if 48 ≤ b.val ∧ b.val ≤ 57 then .num ms key false (b.val - 48)
    else .fail
  | .minus ms key, b =>
    if 48 ≤ b.val ∧ b.val ≤ 57 then .num ms key true (b.val - 48) else .fail
  | .num ms key neg n, b =>
    if 48 ≤ b.val ∧ b.val ≤ 57 then .num ms key neg (n * 10 + (b.val - 48))
    else if b.val = 44 then .comma (ms ++ [(key, .int64 (signed neg n))])
    else if b.val = 125 then .done (ms ++ [(key, .int64 (signed neg n))])
    else .fail
  | .after ms, b =>
    if b.val = 44 then .comma ms
    else if b.val = 125 then .done ms
    else .fail
  | .done _, _ => .fail
  | .fail, _ => .fail

/-- The bytes a run of bytes inside a string literal adds to the string,
when none of them ends the literal or is an error. -/
def readBody : Escape → List Byte → Option (Escape × List Byte)
  | e, [] => some (e, [])
  | e, b :: rest =>
    match strStep e b with
    | .more e1 out =>
      match readBody e1 rest with
      | some (e2, more) => some (e2, out ++ more)
      | none => none
    | _ => none

/-- The object a JSON text denotes, when the text is one the reader
accepts. -/
def decodeObject (text : List Byte) : Option Members :=
  match text.foldl Reader.step .start with
  | .done ms => some ms
  | _ => none

/-- The value a JSON text can carry for a field value: an integer as it is, a
string coerced to valid UTF-8. -/
def FieldValue.coerce : FieldValue → FieldValue
  | .int64 n => .int64 n
  | .string s => .string (coerceUTF8 s)

/-! ## Sample values, tables and engines -/

/-- An int64 column value: scans into an `*int64` as itself and into a
`*string` as its decimal text. -/
def Value.ofInt64 (n : Int) : Value :=
  ⟨.ok n, .ok (formatInt n)⟩

/-- A timestamp column value whose RFC 3339 text is `text`: scans into a
`*string` as that text and not into an `*int64`. -/
def Value.ofTime (text : GoString) : Value :=
  ⟨.error (.raised "converting driver.Value type time.Time to a int64: invalid syntax"), .ok text⟩

/-- The SQL NULL: scans into neither destination. -/
def Value.null : Value :=
  ⟨.error (.raised "converting NULL to int64 is unsupported"),
    .error (.raised "converting NULL to string is unsupported")⟩

/-- A schema with a serial `id`, a `created_at` defaulting to the time of
the insert (fixed here) and unique `username` and `email`. -/
def sampleEngine : Engine where
  violation tbl username email _ _ :=
    if tbl.any (fun r => r.username = username || r.email = email) then
      some (.raised "pq: duplicate key value violates unique constraint")
    else none
  generate tbl _ _ _ _ :=
    (Value.ofInt64 (tbl.length + 1), Value.ofTime (utf8 "2024-01-01T00:00:00Z"))

/-- A schema without constraints whose `created_at` column has no default:
the inserted row gets a serial `id` and a NULL `created_at`. -/
def nullDefaultEngine : Engine where
  violation _ _ _ _ _ := none
  generate tbl _ _ _ _ := (Value.ofInt64 (tbl.length + 1), Value.null)

/-- A context that is not done. -/
def background : Context :=
  ⟨none⟩

/-- A context that was cancelled before the call. -/
def cancelled : Context :=
  ⟨some (.raised "context canceled")⟩

/-- A user as a caller builds it: four input fields, zero `ID` and
`CreatedAt`. -/
def alice : User :=
  ⟨0, utf8 "alice", utf8 "alice@example.com", utf8 "secret", utf8 "patient", []⟩

/-- A table already holding a row for alice. -/
def aliceTable : Table :=
  [⟨Value.ofInt64 1, utf8 "alice", utf8 "alice@example.com", utf8 "secret", utf8 "patient",
    Value.ofTime (utf8 "2023-12-31T00:00:00Z")⟩]

/-- A user whose password is their username. -/
def careless : User :=
  ⟨0, utf8 "alice", utf8 "alice@example.com", utf8 "alice", utf8 "patient", []⟩

/-- A user whose username is the single byte `0xff`, which is not valid
UTF-8. -/
def mangled : User :=
  ⟨1, [0xff], utf8 "m@example.com", utf8 "secret", utf8 "patient",
    utf8 "2024-01-01T00:00:00Z"⟩

/-! ## The scan step -/

/-- Scanning a row of exactly two columns. -/
theorem Rows.Scan_two (c0 c1 : Value) (id : Int) (ca : GoString) :
    Rows.Scan [c0, c1] id ca =
      match c0.toInt64 with
      | .error e => (some (.scanColumn 0 e), id, ca)
      | .ok i =>
        match c1.toStr with
        | .error e => (some (.scanColumn 1 e), i, ca)
        | .ok s => (none, i, s) := rfl

/-- Scanning the columns reports no error exactly when there are two columns
and both convert. -/
theorem Rows.Scan_fst_none_iff (cols : List Value) (id : Int) (ca : GoString) :
    (Rows.Scan cols id ca).1 = none ↔
      ∃ c0 c1 i t, cols = [c0, c1] ∧ c0.toInt64 = .ok i ∧ c1.toStr = .ok t ∧
        Rows.Scan cols id ca = (none, i, t) := by
  constructor
  · intro h
    match cols, h with
    | [c0, c1], h =>
      rw [Rows.Scan_two] at h ⊢
      cases h0 : c0.toInt64 with
      | error e => simp [h0] at h
      | ok i =>
        cases h1 : c1.toStr with
        | error e => simp [h0, h1] at h
        | ok t => exact ⟨c0, c1, i, t, rfl, h0, h1, by simp [Rows.Scan_two, h0, h1]⟩
    | [], h => simp [Rows.Scan] at h
    | [_], h => simp [Rows.Scan] at h
    | _ :: _ :: _ :: _, h => simp [Rows.Scan] at h
  · rintro ⟨c0, c1, i, t, -, -, -, h⟩
    rw [h]

/-- A row that yields `(i, t)` scans without error, leaving `i` and `t` in the
destinations. -/
theorem Row.Scan_of_yields (r : Row) (id : Int) (ca : GoString) (i : Int) (t : GoString)
    (h : r.Yields i t) : r.Scan id ca = (none, i, t) := by
  obtain ⟨c0, c1, ie, rfl, h0, h1⟩ := h
  simp [Row.Scan, Rows.Scan_two, h0, h1]

/-- A scan without error comes from a row that yields what the destinations
now hold. -/
theorem Row.yields_of_scan (r : Row) (id : Int) (ca : GoString)
    (h : (r.Scan id ca).1 = none) : r.Yields (r.Scan id ca).2.1 (r.Scan id ca).2.2 := by
  cases r with
  | failed e => simp [Row.Scan] at h
  | fetched rows =>
    obtain ⟨lc, ie, ce⟩ := rows
    cases lc with
    | none => simp [Row.Scan] at h
    | some cols =>
      simp only [Row.Scan] at h ⊢
      rcases hS : Rows.Scan cols id ca with ⟨e, i, t⟩
      rw [hS] at h
      cases e with
      | some e => simp at h
      | none =>
        simp only at h ⊢
        subst h
        obtain ⟨c0, c1, i1, t1, rfl, h0, h1, h2⟩ :=
          (Rows.Scan_fst_none_iff cols id ca).1 (by rw [hS])
        rw [hS] at h2
        cases h2
        exact ⟨c0, c1, ie, rfl, h0, h1⟩

/-- The error of a scan does not depend on what the destinations held. -/
theorem Row.Scan_err_indep (r : Row) (id id1 : Int) (ca ca1 : GoString) :
    (r.Scan id ca).1 = (r.Scan id1 ca1).1 := by
  cases r with
  | failed e => rfl
  | fetched rows =>
    obtain ⟨lc, ie, ce⟩ := rows
    cases lc with
    | none => rfl
    | some cols =>
      match cols with
      | [] => rfl
      | [_] => rfl
      | _ :: _ :: _ :: _ => rfl
      | [c0, c1] =>
        simp only [Row.Scan, Rows.Scan_two]
        cases c0.toInt64 with
        | error e => rfl
        | ok i => cases c1.toStr <;> rfl

/-- A successful scan overwrites both destinations, whatever they held. -/
theorem Row.Scan_success_indep (r : Row) (id id1 : Int) (ca ca1 : GoString)
    (h : (r.Scan id ca).1 = none) : r.Scan id ca = r.Scan id1 ca1 := by
  have hy := Row.yields_of_scan r id ca h
  rw [Row.Scan_of_yields r id1 ca1 _ _ hy]
  exact Row.Scan_of_yields r id ca _ _ hy

/-! ## `Create` in terms of the handle -/

/-- The outcome of `Create`, field by field, from the row the handle answers
with and its scan. -/
theorem Create_eq {σ : Type} (s : UsersStore σ) (ctx : Context) (u : User) (w : σ) :
    s.Create ctx u w =
      ⟨((s.answer ctx u w).Scan u.ID u.CreatedAt).1,
       { u with ID := ((s.answer ctx u w).Scan u.ID u.CreatedAt).2.1,
                CreatedAt := ((s.answer ctx u w).Scan u.ID u.CreatedAt).2.2 },
       (s.db.QueryRowContext ctx UsersStore.query
          [.str u.Username, .str u.Email, .str u.Password, .str u.Role] w).2⟩ := by
  unfold UsersStore.Create UsersStore.answer
  generalize s.db.QueryRowContext ctx UsersStore.query
    [.str u.Username, .str u.Email, .str u.Password, .str u.Role] w = qr
  obtain ⟨row, w1⟩ := qr
  simp only
  generalize row.Scan u.ID u.CreatedAt = sr
  obtain ⟨err, id, ca⟩ := sr
  cases err <;> rfl

/-- On a recording handle `Create` behaves as on the handle itself and logs
one call. -/
theorem Create_recording {σ : Type} (db : DB σ) (ctx : Context) (u : User) (w : σ)
    (log : List Call) :
    (NewStorage db.recording).Create ctx u (w, log) =
      ⟨((NewStorage db).Create ctx u w).err, ((NewStorage db).Create ctx u w).user,
        (((NewStorage db).Create ctx u w).world,
          log ++ [⟨ctx, UsersStore.query,
            [.str u.Username, .str u.Email, .str u.Password, .str u.Role]⟩])⟩ := by
  rw [Create_eq, Create_eq]
  simp [UsersStore.answer, NewStorage, DB.recording]

/-- The answer of a table handle to the call `Create` makes. -/
theorem Engine.query_eq (E : Engine) (ctx : Context) (u : User) (tbl : Table) :
    E.db.QueryRowContext ctx UsersStore.query
        [.str u.Username, .str u.Email, .str u.Password, .str u.Role] tbl =
      match ctx.Err with
      | some e => (.failed e, tbl)
      | none =>
        match E.violation tbl u.Username u.Email u.Password u.Role with
        | some e => (.failed e, tbl)
        | none =>
          (.fetched ⟨some [(E.generate tbl u.Username u.Email u.Password u.Role).1,
              (E.generate tbl u.Username u.Email u.Password u.Role).2], none, none⟩,
            tbl ++ [⟨(E.generate tbl u.Username u.Email u.Password u.Role).1,
              u.Username, u.Email, u.Password, u.Role,
              (E.generate tbl u.Username u.Email u.Password u.Role).2⟩]) := by
  simp only [Engine.db, if_true]

/-- Every table handle honours cancellation. -/
theorem Engine.db_honoursDone (E : Engine) : E.db.HonoursDone := by
  intro ctx q args w e h
  simp [Engine.db, h]

/-- On a table handle either the query fails and nothing changes, or the
insert is accepted and exactly its row is appended. -/
theorem Engine.create_cases (E : Engine) (ctx : Context) (u : User) (tbl : Table) :
    (∃ e, (NewStorage E.db).answer ctx u tbl = .failed e ∧
      (NewStorage E.db).Create ctx u tbl = ⟨some e, u, tbl⟩) ∨
    (∃ id createdAt, E.generate tbl u.Username u.Email u.Password u.Role = (id, createdAt) ∧
      (NewStorage E.db).answer ctx u tbl = .fetched ⟨some [id, createdAt], none, none⟩ ∧
      ((NewStorage E.db).Create ctx u tbl).world =
        tbl ++ [⟨id, u.Username, u.Email, u.Password, u.Role, createdAt⟩]) := by
  rw [Create_eq]
  simp only [UsersStore.answer, NewStorage, Engine.query_eq]
  cases hc : ctx.Err with
  | some e => left; exact ⟨e, rfl, rfl⟩
  | none =>
    cases hv : E.violation tbl u.Username u.Email u.Password u.Role with
    | some e => left; exact ⟨e, rfl, rfl⟩
    | none => right; exact ⟨_, _, rfl, rfl, rfl⟩

/-- The members of the JSON object of a user. -/
theorem User.toJSON_eq (u : User) :
    u.toJSON = [("id", .int64 u.ID), ("username", .string u.Username),
      ("email", .string u.Email), ("role", .string u.Role),
      ("created_at", .string u.CreatedAt)] := by
  simp [User.toJSON, jsonMembers, User.fields]

/-! ## The contract of `Create` -/

/-- C1: whenever the query/scan step succeeds with the row `(id, createdAt)`,
`Create` returns nil with `ID = id` and `CreatedAt = createdAt`; and whenever
`Create` returns nil, the handle's row is one that yields exactly the `ID`
and `CreatedAt` the user now holds, so nil never comes with only one or
neither of the two fields assigned from the row. -/
theorem create_binds_generated_fields {σ : Type} (s : UsersStore σ) (ctx : Context)
    (u : User) (w : σ) :
    (∀ id createdAt, (s.answer ctx u w).Yields id createdAt →
      (s.Create ctx u w).err = none ∧ (s.Create ctx u w).user.ID = id ∧
        (s.Create ctx u w).user.CreatedAt = createdAt) ∧
    ((s.Create ctx u w).err = none →
      (s.answer ctx u w).Yields (s.Create ctx u w).user.ID (s.Create ctx u w).user.CreatedAt) := by
  rw [Create_eq]
  constructor
  · intro id createdAt h
    simp [Row.Scan_of_yields _ _ _ _ _ h]
  · intro h
    exact Row.yields_of_scan _ _ _ h

theorem create_binds_generated_fields_witness :
    ((NewStorage sampleEngine.db).answer background alice []).Yields 1
      (utf8 "2024-01-01T00:00:00Z") ∧
    ((NewStorage sampleEngine.db).Create background alice []).err = none ∧
    ((NewStorage sampleEngine.db).Create background alice []).user.ID = 1 ∧
    ((NewStorage sampleEngine.db).Create background alice []).user.CreatedAt =
      utf8 "2024-01-01T00:00:00Z" :=
  have hy : ((NewStorage sampleEngine.db).answer background alice []).Yields 1
      (utf8 "2024-01-01T00:00:00Z") := ⟨_, _, none, rfl, rfl, rfl⟩
  ⟨hy, (create_binds_generated_fields (NewStorage sampleEngine.db) background alice []).1 _ _ hy⟩

/-- C2: the error `Create` returns is the error of the `QueryRowContext`/`Scan`
step, unchanged: it is non-nil exactly when the step does not succeed with a
row, and it is the query's error, `rows.Err()` or `ErrNoRows`, the
column-count error, the conversion error of the first or second column, or
the error of `rows.Close()`, whichever the step produced. -/
theorem create_returns_scan_error {σ : Type} (s : UsersStore σ) (ctx : Context)
    (u : User) (w : σ) :
    (s.Create ctx u w).err = ((s.answer ctx u w).Scan u.ID u.CreatedAt).1 ∧
    ((s.Create ctx u w).err ≠ none ↔ ¬ ∃ id createdAt, (s.answer ctx u w).Yields id createdAt) ∧
    (∀ e, s.answer ctx u w = .failed e → (s.Create ctx u w).err = some e) ∧
    (∀ ie ce, s.answer ctx u w = .fetched ⟨none, ie, ce⟩ →
      (s.Create ctx u w).err = some (ie.getD .noRows)) ∧
    (∀ cols ie ce, s.answer ctx u w = .fetched ⟨some cols, ie, ce⟩ → cols.length ≠ 2 →
      (s.Create ctx u w).err = some (.scanArgs cols.length 2)) ∧
    (∀ c0 c1 ie ce e, s.answer ctx u w = .fetched ⟨some [c0, c1], ie, ce⟩ →
      c0.toInt64 = .error e → (s.Create ctx u w).err = some (.scanColumn 0 e)) ∧
    (∀ c0 c1 ie ce i e, s.answer ctx u w = .fetched ⟨some [c0, c1], ie, ce⟩ →
      c0.toInt64 = .ok i → c1.toStr = .error e →
      (s.Create ctx u w).err = some (.scanColumn 1 e)) ∧
    (∀ c0 c1 ie ce i t, s.answer ctx u w = .fetched ⟨some [c0, c1], ie, ce⟩ →
      c0.toInt64 = .ok i → c1.toStr = .ok t → (s.Create ctx u w).err = ce) := by
  rw [Create_eq]
  refine ⟨rfl, ?_, ?_, ?_, ?_, ?_, ?_, ?_⟩
  · constructor
    · rintro h ⟨id, ca, hy⟩
      exact h (by rw [Row.Scan_of_yields _ _ _ _ _ hy])
    · intro h hn
      exact h ⟨_, _, Row.yields_of_scan _ _ _ hn⟩
  · intro e h
    simp [h, Row.Scan]
  · intro ie ce h
    simp [h, Row.Scan]
  · intro cols ie ce h hlen
    match cols, hlen with
    | [], _ => simp [h, Row.Scan, Rows.Scan]
    | [_], _ => simp [h, Row.Scan, Rows.Scan]
    | [_, _], hlen => simp at hlen
    | _ :: _ :: _ :: _, _ => simp [h, Row.Scan, Rows.Scan]
  · intro c0 c1 ie ce e h h0
    simp [h, Row.Scan, Rows.Scan_two, h0]
  · intro c0 c1 ie ce i e h h0 h1
    simp [h, Row.Scan, Rows.Scan_two, h0, h1]
  · intro c0 c1 ie ce i t h h0 h1
    simp [h, Row.Scan, Rows.Scan_two, h0, h1]

/-- C4, counterexample: on a table whose `created_at` has no default, the
insert of alice is accepted and its row is in the table, yet `Create` returns
the error of scanning the NULL `created_at`: an error with the table
changed. -/
theorem create_error_after_insert :
    ((NewStorage nullDefaultEngine.db).Create background alice []).err =
        some (.scanColumn 1 (.raised "converting NULL to string is unsupported")) ∧
    ((NewStorage nullDefaultEngine.db).Create background alice []).world.length = 1 ∧
    ((NewStorage nullDefaultEngine.db).Create background alice []).world.map
        (fun r => (r.username, r.email, r.password, r.role)) =
      [(utf8 "alice", utf8 "alice@example.com", utf8 "secret", utf8 "patient")] := by
  decide

/-- C4, amended: on a handle with statement-level atomicity, a call that
returns nil leaves the table extended by exactly one row, carrying the
caller's four fields and the `id` and `created_at` scanned into the user; a
call whose query fails returns that error and leaves the table unchanged; a
call whose query is accepted leaves the row it inserted in the table whatever
`Create` then returns, so an error raised only while scanning the returned
row does not undo the insert; and after any call the table is either
unchanged or extended by that one row. -/
theorem create_table_effect (E : Engine) (ctx : Context) (u : User) (tbl : Table) :
    (((NewStorage E.db).Create ctx u tbl).err = none →
      ∃ id createdAt,
        ((NewStorage E.db).Create ctx u tbl).world =
          tbl ++ [⟨id, u.Username, u.Email, u.Password, u.Role, createdAt⟩] ∧
        id.toInt64 = .ok ((NewStorage E.db).Create ctx u tbl).user.ID ∧
        createdAt.toStr = .ok ((NewStorage E.db).Create ctx u tbl).user.CreatedAt) ∧
    (∀ e, (NewStorage E.db).answer ctx u tbl = .failed e →
      ((NewStorage E.db).Create ctx u tbl).err = some e ∧
      ((NewStorage E.db).Create ctx u tbl).world = tbl) ∧
    (∀ rows, (NewStorage E.db).answer ctx u tbl = .fetched rows →
      ((NewStorage E.db).Create ctx u tbl).world =
        tbl ++ [⟨(E.generate tbl u.Username u.Email u.Password u.Role).1,
          u.Username, u.Email, u.Password, u.Role,
          (E.generate tbl u.Username u.Email u.Password u.Role).2⟩]) ∧
    (∀ e, ((NewStorage E.db).Create ctx u tbl).err = some e →
      (NewStorage E.db).answer ctx u tbl ≠ .failed e →
      ((NewStorage E.db).Create ctx u tbl).world =
        tbl ++ [⟨(E.generate tbl u.Username u.Email u.Password u.Role).1,
          u.Username, u.Email, u.Password, u.Role,
          (E.generate tbl u.Username u.Email u.Password u.Role).2⟩]) ∧
    (((NewStorage E.db).Create ctx u tbl).world = tbl ∨
      ∃ id createdAt, ((NewStorage E.db).Create ctx u tbl).world =
        tbl ++ [⟨id, u.Username, u.Email, u.Password, u.Role, createdAt⟩]) := by
  rcases Engine.create_cases E ctx u tbl with ⟨e, ha, hc⟩ | ⟨id, ca, hg, ha, hw⟩
  · refine ⟨?_, ?_, ?_, ?_, ?_⟩
    · intro h; rw [hc] at h; cases h
    · intro e1 h1
      rw [ha] at h1; cases h1
      rw [hc]; exact ⟨rfl, rfl⟩
    · intro rows h1
      rw [ha] at h1; cases h1
    · intro e1 h1 h2
      rw [hc] at h1
      cases h1
      exact absurd ha h2
    · left; rw [hc]
  · refine ⟨?_, ?_, ?_, ?_, ?_⟩
    · intro h
      rw [Create_eq] at h
      obtain ⟨c0, c1, ie, hr, h0, h1⟩ := Row.yields_of_scan _ _ _ h
      rw [ha] at hr
      cases hr
      refine ⟨id, ca, hw, ?_, ?_⟩
      · rw [Create_eq]; exact h0
      · rw [Create_eq]; exact h1
    · intro e h1
      rw [ha] at h1; cases h1
    · intro rows _
      rw [hw, hg]
    · intro e _ _
      rw [hw, hg]
    · right; exact ⟨id, ca, hw⟩

theorem create_table_effect_witness :
    (NewStorage nullDefaultEngine.db).answer background alice [] =
      .fetched ⟨some [Value.ofInt64 1, Value.null], none, none⟩ ∧
    ((NewStorage nullDefaultEngine.db).Create background alice []).err ≠ none ∧
    ((NewStorage nullDefaultEngine.db).Create background alice []).world =
      [⟨Value.ofInt64 1, alice.Username, alice.Email, alice.Password, alice.Role,
        Value.null⟩] :=
  ⟨rfl, by decide,
    (create_table_effect nullDefaultEngine background alice []).2.2.1 _ rfl⟩

/-- C5: for a user built with `ID = 0` and `CreatedAt = ""` (the empty string,
no bytes) whose insert the table's constraints reject, `Create` returns a
non-nil error (the violation itself unless the context is done), `ID` is
still 0, `CreatedAt` still empty, and the table is unchanged. -/
theorem create_constraint_violation (E : Engine) (ctx : Context) (u : User) (tbl : Table)
    (e : GoError) (hID : u.ID = 0) (hCreatedAt : u.CreatedAt = [])
    (hv : E.violation tbl u.Username u.Email u.Password u.Role = some e) :
    ((NewStorage E.db).Create ctx u tbl).err ≠ none ∧
    ((NewStorage E.db).Create ctx u tbl).user.ID = 0 ∧
    ((NewStorage E.db).Create ctx u tbl).user.CreatedAt = [] ∧
    ((NewStorage E.db).Create ctx u tbl).world = tbl ∧
    (ctx.Err = none → ((NewStorage E.db).Create ctx u tbl).err = some e) := by
  rw [Create_eq]
  simp only [UsersStore.answer, NewStorage, Engine.query_eq, hv]
  cases hc : ctx.Err <;> simp [Row.Scan, hID, hCreatedAt]

theorem create_constraint_violation_witness :
    alice.ID = 0 ∧ alice.CreatedAt = [] ∧
    sampleEngine.violation aliceTable alice.Username alice.Email alice.Password alice.Role =
      some (.raised "pq: duplicate key value violates unique constraint") ∧
    ((NewStorage sampleEngine.db).Create background alice aliceTable).err ≠ none ∧
    ((NewStorage sampleEngine.db).Create background alice aliceTable).user.ID = 0 ∧
    ((NewStorage sampleEngine.db).Create background alice aliceTable).user.CreatedAt = [] :=
  have h := create_constraint_violation sampleEngine background alice aliceTable
    (.raised "pq: duplicate key value violates unique constraint") rfl rfl (by decide)
  ⟨rfl, rfl, by decide, h.1, h.2.1, h.2.2.1⟩

/-- C6: on a handle that honours cancellation, `Create` with a context that is
already done returns the context's error, leaves the state behind the handle
and the user unchanged, and the single call it makes carries the caller's
context. -/
theorem create_done_context {σ : Type} (db : DB σ) (ctx : Context) (u : User) (w : σ)
    (e : GoError) (hdb : db.HonoursDone) (hctx : ctx.Err = some e) :
    ((NewStorage db).Create ctx u w).err = some e ∧
    ((NewStorage db).Create ctx u w).world = w ∧
    ((NewStorage db).Create ctx u w).user = u ∧
    ((NewStorage db.recording).Create ctx u (w, [])).world.2 =
      [⟨ctx, UsersStore.query, [.str u.Username, .str u.Email, .str u.Password, .str u.Role]⟩] := by
  rw [Create_recording, Create_eq]
  simp [UsersStore.answer, NewStorage, hdb ctx _ _ w e hctx, Row.Scan]

theorem create_done_context_witness :
    sampleEngine.db.HonoursDone ∧ cancelled.Err = some (.raised "context canceled") ∧
    ((NewStorage sampleEngine.db).Create cancelled alice aliceTable).err =
      some (.raised "context canceled") ∧
    ((NewStorage sampleEngine.db).Create cancelled alice aliceTable).world = aliceTable :=
  have h := create_done_context sampleEngine.db cancelled alice aliceTable
    (.raised "context canceled") (Engine.db_honoursDone sampleEngine) rfl
  ⟨Engine.db_honoursDone sampleEngine, rfl, h.1, h.2.1⟩

/-! ## Reading back the JSON text -/

/-- A run of bytes inside a string literal that adds `out` to the string
takes the reader from one state in the literal to the next. -/
theorem readBody_run (ms : Members) (key : Option GoString) :
    ∀ (xs : List Byte) (e e1 : Escape) (bs out : List Byte),
      readBody e xs = some (e1, out) →
      xs.foldl Reader.step (.str ms key e bs) = .str ms key e1 (bs ++ out) := by
  intro xs
  induction xs with
  | nil =>
    intro e e1 bs out h
    simp [readBody] at h
    obtain ⟨rfl, rfl⟩ := h
    simp
  | cons b rest ih =>
    intro e e1 bs out h
    cases hs : strStep e b with
    | more e2 o =>
      cases hr : readBody e2 rest with
      | none => simp [readBody, hs, hr] at h
      | some p =>
        obtain ⟨e3, o3⟩ := p
        simp only [readBody, hs, hr, Option.some.injEq, Prod.mk.injEq] at h
        obtain ⟨rfl, rfl⟩ := h
        simp only [List.foldl, Reader.step, hs]
        rw [ih e2 e3 (bs ++ o) o3 hr, List.append_assoc]
    | close => simp [readBody, hs] at h
    | error => simp [readBody, hs] at h

/-- Runs of bytes inside a string literal compose. -/
theorem readBody_append :
    ∀ (xs ys : List Byte) (e e1 e2 : Escape) (o1 o2 : List Byte),
      readBody e xs = some (e1, o1) → readBody e1 ys = some (e2, o2) →
      readBody e (xs ++ ys) = some (e2, o1 ++ o2) := by
  intro xs
  induction xs with
  | nil =>
    intro ys e e1 e2 o1 o2 h1 h2
    simp [readBody] at h1
    obtain ⟨rfl, rfl⟩ := h1
    simpa using h2
  | cons b rest ih =>
    intro ys e e1 e2 o1 o2 h1 h2
    cases hs : strStep e b with
    | more e3 o =>
      cases hr : readBody e3 rest with
      | none => simp [readBody, hs, hr] at h1
      | some p =>
        obtain ⟨e4, o4⟩ := p
        simp only [readBody, hs, hr, Option.some.injEq, Prod.mk.injEq] at h1
        obtain ⟨rfl, rfl⟩ := h1
        simp only [List.cons_append, readBody, hs]
        have h3 := ih ys e3 e4 e2 o4 o2 hr h2
        simp [h3]
    | close => simp [readBody, hs] at h1
    | error => simp [readBody, hs] at h1

set_option maxRecDepth 100000 in
/-- The escape written for an ASCII byte reads back as that byte. -/
theorem readBody_escapeByte :
    ∀ b : Byte, b.val < 128 → readBody .plain (escapeByte b) = some (.plain, [b]) := by
  decide

set_option maxRecDepth 100000 in
/-- A byte outside ASCII is read as it is. -/
theorem readBody_high :
    ∀ b : Byte, 128 ≤ b.val → readBody .plain [b] = some (.plain, [b]) := by
  decide

/-- What the table `first` says of a leading byte. -/
theorem first_spec (n sz lo hi : Nat) (h : first n = some (sz, lo, hi)) :
    128 ≤ lo ∧ hi ≤ 191 ∧
      (sz = 2 ∨ (sz = 3 ∧ 224 ≤ n ∧ n ≤ 239) ∨
        (sz = 4 ∧ 240 ≤ n ∧ n ≤ 244 ∧ (n = 240 → 144 ≤ lo))) := by
  unfold first at h
  split_ifs at h <;> simp at h <;> omega

/-- At a position the loop does not look at `copy`. -/
theorem encodeFrom_zero (copy : Bool) (s : GoString) :
    encodeFrom 0 copy s = encodeFrom 0 true s := by
  cases s <;> rfl

/-- The bytes up to the next position are copied or dropped. -/
theorem encodeFrom_skip (copy : Bool) (post : GoString) :
    ∀ pre : GoString, encodeFrom pre.length copy (pre ++ post) =
      (if copy then pre else []) ++ encodeFrom 0 true post := by
  intro pre
  induction pre with
  | nil => simp [encodeFrom_zero]
  | cons b pre ih =>
    simp only [List.length_cons, List.cons_append, encodeFrom, List.append_eq]
    rw [ih]
    cases copy <;> simp

/-- The bytes up to the next position are kept by the coercion. -/
theorem coerceFrom_skip (post : GoString) :
    ∀ pre : GoString, coerceFrom pre.length (pre ++ post) = pre ++ coerceFrom 0 post := by
  intro pre
  induction pre with
  | nil => simp
  | cons b pre ih => simp [coerceFrom, ih]

/-- The bytes up to the next position are not looked at again. -/
theorem validFrom_skip (post : GoString) :
    ∀ pre : GoString, validFrom pre.length (pre ++ post) = validFrom 0 post := by
  intro pre
  induction pre with
  | nil => simp
  | cons b pre ih => simp [validFrom, ih]

/-- A rune decoded at a byte outside ASCII: the rest of its encoding follows,
all of it outside ASCII, and the encoding of U+2028 and U+2029 is the one
`encodeRune` gives. -/
theorem decodeRune_spec (b : Byte) (rest : GoString) (r size : Nat) (hb : 128 ≤ b.val)
    (h : decodeRune (b :: rest) = .rune r size) :
    ∃ pre post, rest = pre ++ post ∧ pre.length = size - 1 ∧ post.length < (b :: rest).length ∧
      (∀ x ∈ pre, 128 ≤ x.val) ∧ ((r = 8232 ∨ r = 8233) → b :: pre = encodeRune r) := by
  have hb1 : ¬ b.val < 128 := by omega
  simp only [decodeRune, hb1, if_false] at h
  cases hf : first b.val with
  | none => simp [hf] at h
  | some t =>
    obtain ⟨sz, lo, hi⟩ := t
    have hs := first_spec _ _ _ _ hf
    simp only [hf] at h
    rcases rest with _ | ⟨b1, rest1⟩
    · simp at h
    simp only at h
    by_cases h1 : b1.val < lo ∨ hi < b1.val
    · simp [h1] at h
    simp only [h1, if_false] at h
    by_cases h2 : sz ≤ 2
    · simp only [h2, if_true, Decoded.rune.injEq] at h
      refine ⟨[b1], rest1, rfl, by simp [← h.2], by simp only [List.length_cons]; omega, ?_, ?_⟩
      · intro x hx; simp at hx; subst hx; omega
      · intro hr; omega
    simp only [h2, if_false] at h
    rcases rest1 with _ | ⟨b2, rest2⟩
    · simp at h
    simp only at h
    by_cases h3 : b2.val < 128 ∨ 191 < b2.val
    · simp [h3] at h
    simp only [h3, if_false] at h
    by_cases h4 : sz ≤ 3
    · simp only [h4, if_true, Decoded.rune.injEq] at h
      refine ⟨[b1, b2], rest2, rfl, by simp [← h.2], by simp only [List.length_cons]; omega, ?_, ?_⟩
      · intro x hx; simp at hx; rcases hx with rfl | rfl <;> omega
      · intro hr
        have e0 : b = 226 := Fin.ext (by show b.val = 226; omega)
        have e1 : b1 = 128 := Fin.ext (by show b1.val = 128; omega)
        rcases hr with hr | hr
        · have e2 : b2 = 168 := Fin.ext (by show b2.val = 168; omega)
          subst hr e0 e1 e2
          decide
        · have e2 : b2 = 169 := Fin.ext (by show b2.val = 169; omega)
          subst hr e0 e1 e2
          decide
    simp only [h4, if_false] at h
    rcases rest2 with _ | ⟨b3, rest3⟩
    · simp at h
    simp only at h
    by_cases h5 : b3.val < 128 ∨ 191 < b3.val
    · simp [h5] at h
    simp only [h5, if_false, Decoded.rune.injEq] at h
    refine ⟨[b1, b2, b3], rest3, rfl, by simp [← h.2], by simp only [List.length_cons]; omega, ?_, ?_⟩
    · intro x hx; simp at hx; rcases hx with rfl | rfl | rfl <;> omega
    · intro hr; omega

/-- Bytes outside ASCII are read as they are. -/
theorem readBody_highs :
    ∀ pre : List Byte, (∀ x ∈ pre, 128 ≤ x.val) → readBody .plain pre = some (.plain, pre) := by
  intro pre
  induction pre with
  | nil => intro _; rfl
  | cons b pre ih =>
    intro h
    have h1 := readBody_high b (h b (by simp))
    have h2 := ih (fun x hx => h x (by simp [hx]))
    simpa using readBody_append [b] pre _ _ _ _ _ h1 h2

/-- An ASCII byte decodes to itself. -/
theorem decodeRune_ascii (b : Byte) (rest : GoString) (hb : b.val < 128) :
    decodeRune (b :: rest) = .rune b.val 1 := by
  simp [decodeRune, hb]

/-- The body of a string literal reads back as the string coerced to valid
UTF-8, by induction on the length. -/
theorem readBody_encodeFrom_aux : ∀ (n : Nat) (s : GoString), s.length = n →
    readBody .plain (encodeFrom 0 true s) = some (.plain, coerceFrom 0 s) := by
  intro n
  induction n using Nat.strong_induction_on with
  | _ n ih =>
    intro s hn
    rcases s with _ | ⟨b, rest⟩
    · rfl
    · subst hn
      by_cases hb : b.val < 128
      · have h1 := readBody_escapeByte b hb
        have h2 := ih rest.length (by simp) rest rfl
        simp only [encodeFrom, hb, if_true, coerceFrom, decodeRune_ascii b rest hb]
        simpa using readBody_append _ _ _ _ _ _ _ h1 h2
      · simp only [encodeFrom, hb, if_false, coerceFrom]
        cases hd : decodeRune (b :: rest) with
        | invalid =>
          have h1 : readBody .plain [92, 117, 102, 102, 102, 100] =
              some (.plain, [0xEF, 0xBF, 0xBD]) := by decide
          have h2 := ih rest.length (by simp) rest rfl
          simpa using readBody_append _ _ _ _ _ _ _ h1 h2
        | rune r size =>
          obtain ⟨pre, post, rfl, hlen, hpost, hhigh, hspecial⟩ :=
            decodeRune_spec b rest r size (by omega) hd
          have h2 := ih post.length hpost post rfl
          simp only [← hlen, encodeFrom_skip, coerceFrom_skip]
          by_cases hr : r = 8232 ∨ r = 8233
          · have h1 : readBody .plain [92, 117, 50, 48, 50, hexDigit (r % 16)] =
                some (.plain, b :: pre) := by
              rw [hspecial hr]
              rcases hr with rfl | rfl <;> decide
            simp only [hr, if_true]
            simpa using readBody_append _ _ _ _ _ _ _ h1 h2
          · have h1 : readBody .plain (b :: pre) = some (.plain, b :: pre) :=
              readBody_highs (b :: pre) (by
                intro x hx
                simp at hx
                rcases hx with rfl | hx
                · omega
                · exact hhigh x hx)
            simp only [hr, if_false]
            simpa using readBody_append _ _ _ _ _ _ _ h1 h2

/-- Coercion leaves valid UTF-8 as it is, by induction on the length. -/
theorem coerceFrom_of_valid_aux : ∀ (n : Nat) (s : GoString), s.length = n →
    validFrom 0 s = true → coerceFrom 0 s = s := by
  intro n
  induction n using Nat.strong_induction_on with
  | _ n ih =>
    intro s hn h
    rcases s with _ | ⟨b, rest⟩
    · rfl
    · subst hn
      simp only [validFrom, coerceFrom] at h ⊢
      cases hd : decodeRune (b :: rest) with
      | invalid => simp [hd] at h
      | rune r size =>
        simp only [hd] at h
        by_cases hb : b.val < 128
        · rw [decodeRune_ascii b rest hb] at hd
          cases hd
          simp only [Nat.sub_self] at h ⊢
          rw [ih rest.length (by simp) rest rfl h]
        · obtain ⟨pre, post, rfl, hlen, hpost, -, -⟩ :=
            decodeRune_spec b rest r size (by omega) hd
          rw [← hlen, validFrom_skip] at h
          show b :: coerceFrom (size - 1) (pre ++ post) = b :: (pre ++ post)
          rw [← hlen, coerceFrom_skip, ih post.length hpost post rfl h]

/-- The body of a string literal reads back as the string coerced to valid
UTF-8. -/
theorem readBody_encodeFrom (s : GoString) :
    readBody .plain (encodeFrom 0 true s) = some (.plain, coerceUTF8 s) :=
  readBody_encodeFrom_aux s.length s rfl

/-- Coercion leaves valid UTF-8 as it is. -/
theorem coerceUTF8_of_valid (s : GoString) (h : validUTF8 s = true) : coerceUTF8 s = s :=
  coerceFrom_of_valid_aux s.length s rfl h

/-- The byte of a decimal digit. -/
theorem digit_val (d : Nat) (hd : d < 10) : (Fin.ofNat (48 + d) : Byte).val = 48 + d := by
  show (48 + d) % 256 = 48 + d
  omega

/-- A digit inside a number. -/
theorem step_num_digit (ms : Members) (key : GoString) (neg : Bool) (n d : Nat) (hd : d < 10) :
    Reader.step (.num ms key neg n) (Fin.ofNat (48 + d)) = .num ms key neg (n * 10 + d) := by
  have h := digit_val d hd
  simp only [Reader.step, h]
  rw [if_pos (by omega)]
  congr 1
  omega

/-- Reading the digits written for `n` from a state that starts a number. -/
theorem run_formatDigits (ms : Members) (key : GoString) (neg : Bool) (s0 : Reader)
    (hs0 : ∀ d, d < 10 → Reader.step s0 (Fin.ofNat (48 + d)) = .num ms key neg d) :
    ∀ (fuel n : Nat) (acc : List Byte), n < fuel →
      (formatDigits fuel n acc).foldl Reader.step s0 =
        acc.foldl Reader.step (.num ms key neg n) := by
  intro fuel
  induction fuel with
  | zero => intro n acc h; omega
  | succ fuel ih =>
    intro n acc h
    by_cases hn : n < 10
    · simp only [formatDigits, hn, if_true, List.foldl, hs0 n hn]
    · simp only [formatDigits, hn, if_false]
      rw [ih (n / 10) _ (by omega)]
      simp only [List.foldl]
      rw [step_num_digit ms key neg (n / 10) (n % 10) (by omega)]
      congr 2
      omega

/-- A digit where a value starts. -/
theorem step_value_digit (ms : Members) (key : GoString) (d : Nat) (hd : d < 10) :
    Reader.step (.value ms key) (Fin.ofNat (48 + d)) = .num ms key false d := by
  have h := digit_val d hd
  simp only [Reader.step, h]
  rw [if_neg (by omega), if_neg (by omega), if_pos (by omega)]
  congr 1
  omega

/-- A digit after a minus sign. -/
theorem step_minus_digit (ms : Members) (key : GoString) (d : Nat) (hd : d < 10) :
    Reader.step (.minus ms key) (Fin.ofNat (48 + d)) = .num ms key true d := by
  have h := digit_val d hd
  simp only [Reader.step, h]
  rw [if_pos (by omega)]
  congr 1
  omega

/-- A comma or closing brace ends a number. -/
theorem step_num_end (ms : Members) (key : GoString) (neg : Bool) (n : Nat) (c : Byte)
    (hc : c.val = 44 ∨ c.val = 125) :
    Reader.step (.num ms key neg n) c =
      Reader.step (.after (ms ++ [(key, .int64 (signed neg n))])) c := by
  rcases hc with hc | hc <;> simp [Reader.step, hc]

/-- Reading the text of a value, up to the comma or brace after it. -/
theorem run_encodeValue (ms : Members) (key : GoString) (v : FieldValue) (c : Byte)
    (rest : List Byte) (hc : c.val = 44 ∨ c.val = 125) :
    (encodeValue v ++ c :: rest).foldl Reader.step (.value ms key) =
      (c :: rest).foldl Reader.step (.after (ms ++ [(key, v.coerce)])) := by
  cases v with
  | string s =>
    have h := readBody_run ms (some key) _ _ _ [] _ (readBody_encodeFrom s)
    rw [List.nil_append] at h
    simp only [encodeValue, encodeString, List.cons_append, List.foldl_cons, List.foldl_append,
      List.append_assoc, FieldValue.coerce, List.foldl_nil]
    have h0 : Reader.step (.value ms key) 34 = .str ms (some key) .plain [] := rfl
    have h1 : Reader.step (.str ms (some key) .plain (coerceUTF8 s)) 34 =
        .after (ms ++ [(key, .string (coerceUTF8 s))]) := rfl
    rw [h0, h, h1]
  | int64 n =>
    simp only [encodeValue, FieldValue.coerce, List.foldl_append]
    cases n with
    | ofNat n =>
      simp only [formatInt]
      rw [run_formatDigits ms key false _ (step_value_digit ms key) (n + 1) n [] (by omega)]
      simp only [List.foldl_nil, List.foldl_cons]
      rw [step_num_end ms key false n c hc]
      simp [signed]
    | negSucc n =>
      simp only [formatInt, List.foldl_cons]
      have h0 : Reader.step (.value ms key) 45 = .minus ms key := rfl
      rw [h0, run_formatDigits ms key true _ (step_minus_digit ms key) (n + 2) (n + 1) []
        (by omega)]
      simp only [List.foldl_nil, List.foldl_cons]
      rw [step_num_end ms key true (n + 1) c hc]
      simp [signed, Int.negSucc_eq]

/-- Reading the text of a member, up to the comma or brace after it. -/
theorem run_encodeMember (ms : Members) (s0 : Reader) (m : String × FieldValue) (c : Byte)
    (rest : List Byte) (hs0 : Reader.step s0 34 = .str ms none .plain [])
    (hc : c.val = 44 ∨ c.val = 125) :
    (encodeMember m ++ c :: rest).foldl Reader.step s0 =
      (c :: rest).foldl Reader.step
        (.after (ms ++ [(coerceUTF8 (utf8 m.1), m.2.coerce)])) := by
  have h := readBody_run ms none _ _ _ [] _ (readBody_encodeFrom (utf8 m.1))
  rw [List.nil_append] at h
  simp only [encodeMember, encodeString, List.cons_append, List.foldl_cons, List.foldl_append,
    List.append_assoc, List.foldl_nil]
  have h1 : Reader.step (.str ms none .plain (coerceUTF8 (utf8 m.1))) 34 =
      .colon ms (coerceUTF8 (utf8 m.1)) := rfl
  have h2 : Reader.step (.colon ms (coerceUTF8 (utf8 m.1))) 58 =
      .value ms (coerceUTF8 (utf8 m.1)) := rfl
  rw [hs0, h, h1, h2]
  have h3 := run_encodeValue ms (coerceUTF8 (utf8 m.1)) m.2 c rest hc
  simpa only [List.foldl_append, List.foldl_cons] using h3

/-- After a member the struct encoder writes a comma or a closing brace. -/
theorem encodeFields_head (ms : List (String × FieldValue)) :
    ∃ c rest, encodeFields 44 ms = c :: rest ∧ (c.val = 44 ∨ c.val = 125) := by
  cases ms with
  | nil => exact ⟨125, [], by simp [encodeFields], Or.inr rfl⟩
  | cons m ms => exact ⟨44, _, rfl, Or.inl rfl⟩

/-- Reading the members after the first. -/
theorem run_encodeFields :
    ∀ (ms : List (String × FieldValue)) (acc : Members),
      (encodeFields 44 ms).foldl Reader.step (.after acc) =
        .done (acc ++ ms.map fun m => (coerceUTF8 (utf8 m.1), m.2.coerce)) := by
  intro ms
  induction ms with
  | nil =>
    intro acc
    have h0 : Reader.step (.after acc) 125 = .done acc := rfl
    simp [encodeFields, h0]
  | cons m ms ih =>
    intro acc
    obtain ⟨c, rest, hcr, hc⟩ := encodeFields_head ms
    have h0 : Reader.step (.after acc) 44 = .comma acc := rfl
    have h1 : Reader.step (.comma acc) 34 = .str acc none .plain [] := rfl
    simp only [encodeFields, List.foldl_cons, h0]
    rw [hcr, run_encodeMember acc _ m c rest h1 hc, ← hcr, ih]
    simp

/-- Reading back the text of an object gives its members, keys and string
values coerced to valid UTF-8. -/
theorem decodeObject_encodeObject (ms : List (String × FieldValue)) :
    decodeObject (encodeObject ms) =
      some (ms.map fun m => (coerceUTF8 (utf8 m.1), m.2.coerce)) := by
  cases ms with
  | nil => rfl
  | cons m ms =>
    obtain ⟨c, rest, hcr, hc⟩ := encodeFields_head ms
    have h0 : Reader.step .start 123 = .opened := rfl
    have h1 : Reader.step .opened 34 = .str [] none .plain [] := rfl
    simp only [decodeObject, encodeObject, encodeFields, List.foldl_cons, h0]
    rw [hcr, run_encodeMember [] _ m c rest h1 hc, ← hcr, run_encodeFields]
    simp

/-! ## Serialization -/

/-- C7, counterexample: a user whose password equals their username is
created successfully, and the JSON text of the created user contains the
password's literal value. -/
theorem marshal_contains_password :
    ((NewStorage sampleEngine.db).Create background careless []).err = none ∧
    ((NewStorage sampleEngine.db).Create background careless []).user.Password =
      utf8 "alice" ∧
    ((NewStorage sampleEngine.db).Create background careless []).user.Marshal =
      utf8 "\x7b\"id\":1,\"username\":\"alice\",\"email\":\"alice@example.com\",\"role\":\"patient\",\"created_at\":\"2024-01-01T00:00:00Z\"\x7d" ∧
    OccursIn
      ((NewStorage sampleEngine.db).Create background careless []).user.Password
      ((NewStorage sampleEngine.db).Create background careless []).user.Marshal := by
  decide

/-- C7, amended: the JSON text of a successfully created user does not depend
on the password (any other password gives the same text) and the object has
the five members `id, username, email, role, created_at` only. -/
theorem marshal_independent_of_password {σ : Type} (s : UsersStore σ) (ctx : Context)
    (u : User) (w : σ) (p : GoString) (_h : (s.Create ctx u w).err = none) :
    ({ (s.Create ctx u w).user with Password := p } : User).Marshal =
        (s.Create ctx u w).user.Marshal ∧
    (s.Create ctx u w).user.toJSON.map Prod.fst =
      ["id", "username", "email", "role", "created_at"] := by
  simp [User.Marshal, User.toJSON_eq]

theorem marshal_independent_of_password_witness :
    ((NewStorage sampleEngine.db).Create background alice []).err = none ∧
    ({ ((NewStorage sampleEngine.db).Create background alice []).user with
        Password := utf8 "hunter2" } : User).Marshal =
      ((NewStorage sampleEngine.db).Create background alice []).user.Marshal :=
  ⟨by decide,
    (marshal_independent_of_password (NewStorage sampleEngine.db) background alice []
      (utf8 "hunter2") (by decide)).1⟩

/-- C8, counterexample: the username of this user is the single byte `0xff`;
the JSON text written for the user is an object whose member `username` holds
U+FFFD, not the username, and a user with another such username gets the very
same text. -/
theorem marshal_replaces_invalid_utf8 :
    mangled.Username = [0xff] ∧
    mangled.Marshal =
      utf8 "\x7b\"id\":1,\"username\":\"\\ufffd\",\"email\":\"m@example.com\",\"role\":\"patient\",\"created_at\":\"2024-01-01T00:00:00Z\"\x7d" ∧
    decodeObject mangled.Marshal =
      some [(utf8 "id", .int64 1), (utf8 "username", .string [0xEF, 0xBF, 0xBD]),
        (utf8 "email", .string (utf8 "m@example.com")), (utf8 "role", .string (utf8 "patient")),
        (utf8 "created_at", .string (utf8 "2024-01-01T00:00:00Z"))] ∧
    ({ mangled with Username := [0xfe] } : User).Marshal = mangled.Marshal := by
  decide

/-- C8, amended: the JSON object of a user has exactly the members `id,
username, email, role, created_at`, holding `ID, Username, Email, Role,
CreatedAt`; its text is these five members between braces, and read back as
JSON it is the object with these five keys whose values are `ID` and the
other four fields coerced to valid UTF-8, hence the fields themselves when
they are valid UTF-8; users that agree on those five fields, whatever their
passwords, serialize to the same text. -/
theorem marshal_five_members (u : User) :
    u.toJSON = [("id", .int64 u.ID), ("username", .string u.Username),
      ("email", .string u.Email), ("role", .string u.Role),
      ("created_at", .string u.CreatedAt)] ∧
    u.Marshal =
      utf8 "\x7b\"id\":" ++ formatInt u.ID ++
      utf8 ",\"username\":" ++ encodeString u.Username ++
      utf8 ",\"email\":" ++ encodeString u.Email ++
      utf8 ",\"role\":" ++ encodeString u.Role ++
      utf8 ",\"created_at\":" ++ encodeString u.CreatedAt ++ utf8 "\x7d" ∧
    decodeObject u.Marshal =
      some [(utf8 "id", .int64 u.ID), (utf8 "username", .string (coerceUTF8 u.Username)),
        (utf8 "email", .string (coerceUTF8 u.Email)),
        (utf8 "role", .string (coerceUTF8 u.Role)),
        (utf8 "created_at", .string (coerceUTF8 u.CreatedAt))] ∧
    (validUTF8 u.Username = true → validUTF8 u.Email = true → validUTF8 u.Role = true →
      validUTF8 u.CreatedAt = true →
      decodeObject u.Marshal =
        some [(utf8 "id", .int64 u.ID), (utf8 "username", .string u.Username),
          (utf8 "email", .string u.Email), (utf8 "role", .string u.Role),
          (utf8 "created_at", .string u.CreatedAt)]) ∧
    (∀ v : User, v.ID = u.ID → v.Username = u.Username → v.Email = u.Email →
      v.Role = u.Role → v.CreatedAt = u.CreatedAt → v.Marshal = u.Marshal) := by
  have hd : decodeObject u.Marshal =
      some [(utf8 "id", .int64 u.ID), (utf8 "username", .string (coerceUTF8 u.Username)),
        (utf8 "email", .string (coerceUTF8 u.Email)),
        (utf8 "role", .string (coerceUTF8 u.Role)),
        (utf8 "created_at", .string (coerceUTF8 u.CreatedAt))] := by
    have k1 : coerceUTF8 (utf8 "id") = utf8 "id" := by decide
    have k2 : coerceUTF8 (utf8 "username") = utf8 "username" := by decide
    have k3 : coerceUTF8 (utf8 "email") = utf8 "email" := by decide
    have k4 : coerceUTF8 (utf8 "role") = utf8 "role" := by decide
    have k5 : coerceUTF8 (utf8 "created_at") = utf8 "created_at" := by decide
    rw [User.Marshal, decodeObject_encodeObject, User.toJSON_eq]
    simp only [List.map, FieldValue.coerce, k1, k2, k3, k4, k5]
  refine ⟨User.toJSON_eq u, ?_, hd, ?_, ?_⟩
  · have e1 : encodeString (utf8 "id") = utf8 "\"id\"" := by decide
    have e2 : encodeString (utf8 "username") = utf8 "\"username\"" := by decide
    have e3 : encodeString (utf8 "email") = utf8 "\"email\"" := by decide
    have e4 : encodeString (utf8 "role") = utf8 "\"role\"" := by decide
    have e5 : encodeString (utf8 "created_at") = utf8 "\"created_at\"" := by decide
    have b1 : utf8 "\x7b\"id\":" = 123 :: (utf8 "\"id\"" ++ [58]) := by decide
    have b2 : utf8 ",\"username\":" = 44 :: (utf8 "\"username\"" ++ [58]) := by decide
    have b3 : utf8 ",\"email\":" = 44 :: (utf8 "\"email\"" ++ [58]) := by decide
    have b4 : utf8 ",\"role\":" = 44 :: (utf8 "\"role\"" ++ [58]) := by decide
    have b5 : utf8 ",\"created_at\":" = 44 :: (utf8 "\"created_at\"" ++ [58]) := by decide
    have b6 : utf8 "\x7d" = [125] := by decide
    simp only [User.Marshal, User.toJSON_eq, encodeObject, encodeFields, encodeMember,
      encodeValue, b1, b2, b3, b4, b5, b6]
    simp [e1, e2, e3, e4, e5]
  · intro h1 h2 h3 h4
    rw [hd, coerceUTF8_of_valid _ h1, coerceUTF8_of_valid _ h2, coerceUTF8_of_valid _ h3,
      coerceUTF8_of_valid _ h4]
  · intro v h1 h2 h3 h4 h5
    simp [User.Marshal, User.toJSON_eq, h1, h2, h3, h4, h5]

theorem marshal_five_members_witness :
    validUTF8 alice.Username = true ∧ validUTF8 alice.Email = true ∧
    validUTF8 alice.Role = true ∧ validUTF8 alice.CreatedAt = true ∧
    decodeObject alice.Marshal =
      some [(utf8 "id", .int64 alice.ID), (utf8 "username", .string alice.Username),
        (utf8 "email", .string alice.Email), (utf8 "role", .string alice.Role),
        (utf8 "created_at", .string alice.CreatedAt)] :=
  ⟨by decide, by decide, by decide, by decide,
    (marshal_five_members alice).2.2.2.1 (by decide) (by decide) (by decide) (by decide)⟩

/-! ## Input and output fields -/

/-- C9: two users that agree on `Username, Email, Password, Role` make `Create`
issue the same call, leave the same state behind the handle, get the same
result, and on success end equal in all six fields, whatever their `ID` and
`CreatedAt` were before. -/
theorem create_ignores_generated_fields {σ : Type} (db : DB σ) (ctx : Context)
    (u1 u2 : User) (w : σ) (log : List Call)
    (hUsername : u1.Username = u2.Username) (hEmail : u1.Email = u2.Email)
    (hPassword : u1.Password = u2.Password) (hRole : u1.Role = u2.Role) :
    ((NewStorage db.recording).Create ctx u1 (w, log)).world =
        ((NewStorage db.recording).Create ctx u2 (w, log)).world ∧
    ((NewStorage db.recording).Create ctx u1 (w, log)).world.2 =
        log ++ [⟨ctx, UsersStore.query,
          [.str u2.Username, .str u2.Email, .str u2.Password, .str u2.Role]⟩] ∧
    ((NewStorage db.recording).Create ctx u1 (w, log)).err =
        ((NewStorage db.recording).Create ctx u2 (w, log)).err ∧
    (((NewStorage db.recording).Create ctx u1 (w, log)).err = none →
      ((NewStorage db.recording).Create ctx u1 (w, log)).user =
        ((NewStorage db.recording).Create ctx u2 (w, log)).user) := by
  have ha : (NewStorage db).answer ctx u1 w = (NewStorage db).answer ctx u2 w := by
    simp [UsersStore.answer, hUsername, hEmail, hPassword, hRole]
  rw [Create_recording, Create_recording, Create_eq, Create_eq, ha]
  refine ⟨by simp only [hUsername, hEmail, hPassword, hRole],
    by simp only [hUsername, hEmail, hPassword, hRole], Row.Scan_err_indep _ _ _ _ _, ?_⟩
  intro h
  rw [Row.Scan_success_indep _ u1.ID u2.ID u1.CreatedAt u2.CreatedAt h]
  simp only [hUsername, hEmail, hPassword, hRole]

theorem create_ignores_generated_fields_witness :
    alice.Username = ({ alice with ID := 77, CreatedAt := utf8 "yesterday" } : User).Username ∧
    alice.Email = ({ alice with ID := 77, CreatedAt := utf8 "yesterday" } : User).Email ∧
    alice.Password = ({ alice with ID := 77, CreatedAt := utf8 "yesterday" } : User).Password ∧
    alice.Role = ({ alice with ID := 77, CreatedAt := utf8 "yesterday" } : User).Role ∧
    ((NewStorage sampleEngine.db.recording).Create background alice ([], [])).err =
      ((NewStorage sampleEngine.db.recording).Create background
        { alice with ID := 77, CreatedAt := utf8 "yesterday" } ([], [])).err ∧
    ((NewStorage sampleEngine.db.recording).Create background alice ([], [])).user =
      ((NewStorage sampleEngine.db.recording).Create background
        { alice with ID := 77, CreatedAt := utf8 "yesterday" } ([], [])).user :=
  have h := create_ignores_generated_fields sampleEngine.db background alice
    { alice with ID := 77, CreatedAt := utf8 "yesterday" } [] [] rfl rfl rfl rfl
  ⟨rfl, rfl, rfl, rfl, h.2.2.1, h.2.2.2 (by decide)⟩

/-- C10: `Create` leaves `Username, Email, Password, Role` as they were,
whatever the outcome; on success the parameters of the call are those four
fields of the user, `ID` and `CreatedAt` are the two columns of the returned
row, and on a table handle the appended row carries exactly the user's six
fields. -/
theorem create_keeps_input_fields {σ : Type} (db : DB σ) (ctx : Context) (u : User)
    (w : σ) (log : List Call) :
    ((NewStorage db.recording).Create ctx u (w, log)).user.Username = u.Username ∧
    ((NewStorage db.recording).Create ctx u (w, log)).user.Email = u.Email ∧
    ((NewStorage db.recording).Create ctx u (w, log)).user.Password = u.Password ∧
    ((NewStorage db.recording).Create ctx u (w, log)).user.Role = u.Role ∧
    (((NewStorage db.recording).Create ctx u (w, log)).err = none →
      ∃ c0 c1 ie,
        ((NewStorage db.recording).Create ctx u (w, log)).world.2 =
          log ++ [⟨ctx, UsersStore.query,
            [.str ((NewStorage db.recording).Create ctx u (w, log)).user.Username,
             .str ((NewStorage db.recording).Create ctx u (w, log)).user.Email,
             .str ((NewStorage db.recording).Create ctx u (w, log)).user.Password,
             .str ((NewStorage db.recording).Create ctx u (w, log)).user.Role]⟩] ∧
        (NewStorage db).answer ctx u w = .fetched ⟨some [c0, c1], ie, none⟩ ∧
        c0.toInt64 = .ok ((NewStorage db.recording).Create ctx u (w, log)).user.ID ∧
        c1.toStr = .ok ((NewStorage db.recording).Create ctx u (w, log)).user.CreatedAt) ∧
    (∀ (E : Engine) (tbl : Table), ((NewStorage E.db).Create ctx u tbl).err = none →
      ∃ id createdAt,
        ((NewStorage E.db).Create ctx u tbl).world =
          tbl ++ [⟨id, ((NewStorage E.db).Create ctx u tbl).user.Username,
            ((NewStorage E.db).Create ctx u tbl).user.Email,
            ((NewStorage E.db).Create ctx u tbl).user.Password,
            ((NewStorage E.db).Create ctx u tbl).user.Role, createdAt⟩] ∧
        id.toInt64 = .ok ((NewStorage E.db).Create ctx u tbl).user.ID ∧
        createdAt.toStr = .ok ((NewStorage E.db).Create ctx u tbl).user.CreatedAt) := by
  refine ⟨?_, ?_, ?_, ?_, ?_, ?_⟩
  · rw [Create_recording, Create_eq]
  · rw [Create_recording, Create_eq]
  · rw [Create_recording, Create_eq]
  · rw [Create_recording, Create_eq]
  · rw [Create_recording, Create_eq]
    intro h
    obtain ⟨c0, c1, ie, hr, h0, h1⟩ := Row.yields_of_scan _ _ _ h
    exact ⟨c0, c1, ie, rfl, hr, h0, h1⟩
  · intro E tbl h
    rcases Engine.create_cases E ctx u tbl with ⟨e, -, hc⟩ | ⟨id, ca, -, ha, hw⟩
    · rw [hc] at h; cases h
    · rw [Create_eq] at h
      obtain ⟨c0, c1, ie, hr, h0, h1⟩ := Row.yields_of_scan _ _ _ h
      rw [ha] at hr
      cases hr
      refine ⟨id, ca, ?_, ?_, ?_⟩
      · rw [hw, Create_eq]
      · rw [Create_eq]; exact h0
      · rw [Create_eq]; exact h1

end Store
